import Mathlib

/-!
Shallow embedding of the math-solver web relay (src/app.py).

Strings are modelled as `List Char`.  Python regular-expression
substitutions are modelled by structurally recursive scanners that mirror
the leftmost, non-overlapping, greedy-with-backtracking behaviour of
`re.sub` on the concrete patterns used by the source.  The whitespace
class is the ASCII part of Python `\s` and the digit class is ASCII
`\d`; the provider completion calls are modelled as `Except` values
(a failing call carries the exception text), and each HTTP handler also
returns the list of provider gateways it invoked, mirroring which client
calls the corresponding Python code path executes.
-/

/-- ASCII fragment of the Python whitespace class used by `str.strip`,
the regex class in the blank-line collapse, and the step regex. -/
def pyWs (c : Char) : Bool :=
  c = ' ' || c = '\t' || c = '\n' || c = '\r' || c = '\x0b' || c = '\x0c'

/-- Is the head of the list a whitespace character (false on empty). -/
def headWs : List Char → Bool
  | [] => false
  | c :: _ => pyWs c

/-- Is the head of the list an ASCII digit (false on empty). -/
def headDig : List Char → Bool
  | [] => false
  | c :: _ => c.isDigit

/- ---------------------------------------------------------------
   format_exponents (src/app.py lines 34-46)
   --------------------------------------------------------------- -/

/-- Scanner for the generic rule of the source line
`re.sub(r'\^(\d+)', r'<sup>\1</sup>', text)`.
The Bool state is true while inside a replaced digit run
(the open tag has been emitted, the close tag is pending). -/
def scGo : Bool → List Char → List Char
  | false, [] => []
  | true, [] => "</sup>".toList
  | false, c :: cs =>
    if c = '^' ∧ headDig cs then "<sup>".toList ++ scGo true cs
    else c :: scGo false cs
  | true, c :: cs =>
    if c.isDigit then c :: scGo true cs
    else if c = '^' ∧ headDig cs then
      "</sup>".toList ++ "<sup>".toList ++ scGo true cs
    else "</sup>".toList ++ c :: scGo false cs

/-- The generic exponent substitution: every caret followed by a maximal
nonempty digit run becomes a sup-tag span wrapping those digits. -/
def subCaret (l : List Char) : List Char := scGo false l

/-- One legacy literal substitution of the source,
`re.sub(r'x\^d', 'x<glyph>', text)` for a fixed digit `d` and
superscript glyph `g`.  On a failed three-character match the Python
engine advances one position; since the pattern starts with the letter x
the caret at the next position can never start a match either, so the
scanner soundly advances past both characters. -/
def litSub (d g : Char) : List Char → List Char
  | 'x' :: '^' :: c :: cs =>
    if c = d then 'x' :: g :: litSub d g cs
    else 'x' :: '^' :: litSub d g (c :: cs)
  | c :: cs => c :: litSub d g cs
  | [] => []

/-- `format_exponents` of the source: the generic caret rule followed by
the eight legacy literal substitutions x^2 .. x^9. -/
def format_exponents (l : List Char) : List Char :=
  litSub '9' '⁹' (litSub '8' '⁸' (litSub '7' '⁷' (litSub '6' '⁶'
    (litSub '5' '⁵' (litSub '4' '⁴' (litSub '3' '³' (litSub '2' '²'
      (subCaret l))))))))

/- ---------------------------------------------------------------
   format_output (src/app.py lines 48-76)
   --------------------------------------------------------------- -/

/-- Right trim of trailing Python whitespace. -/
def trimR (l : List Char) : List Char := (l.reverse.dropWhile pyWs).reverse

/-- Python `str.strip()` on the ASCII whitespace set. -/
def pyStrip (l : List Char) : List Char := trimR (l.dropWhile pyWs)

/-- Transform of one maximal whitespace run under
`re.sub(r'\n\s*\n', '\n', text)`: if the run holds at least two
newlines, the greedy match runs from its first newline to its last one
and is replaced by a single newline; otherwise the run is untouched. -/
def flushRun (run : List Char) : List Char :=
  if 2 ≤ run.count '\n' then
    run.takeWhile (fun c => ¬ (c = '\n')) ++
      '\n' :: (run.reverse.takeWhile (fun c => ¬ (c = '\n'))).reverse
  else run

/-- Scanner for the blank-line collapse: accumulates the current maximal
whitespace run in `pend` and flushes it through `flushRun` at each
non-whitespace character and at the end of input. -/
def collapseGo (pend : List Char) : List Char → List Char
  | [] => flushRun pend
  | c :: cs =>
    if pyWs c then collapseGo (pend ++ [c]) cs
    else flushRun pend ++ c :: collapseGo [] cs

/-- The whitespace-collapse substitution of source line 50 (after the
strip). -/
def collapseBlank (l : List Char) : List Char := collapseGo [] l

/-- Case-insensitive character comparison (re.IGNORECASE). -/
def ciEq (a b : Char) : Bool := a.toLower = b.toLower

/-- Case-insensitive list-to-list match of a pattern against the start
of the text. -/
def ciPre : List Char → List Char → Bool
  | [], _ => true
  | _ :: _, [] => false
  | p :: ps, c :: cs => ciEq p c && ciPre ps cs

def faP1 : List Char := "Final answer".toList
def faP2 : List Char := "The answer is".toList
def faP3 : List Char := "Result".toList

/-- Capture group 2 of the final-answer regex `:?\s*(.+)` with
re.DOTALL, applied to the nonempty text following a matched marker:
the optional colon and a greedy whitespace run are consumed, and the
greedy dot-plus capture takes everything that remains; when everything
after the (optional) colon is whitespace the engine backtracks so that
the capture still gets the last character, and when nothing at all
follows the colon the colon itself becomes the capture. -/
def group2 : List Char → List Char
  | [] => []
  | ':' :: r2 =>
    if r2 = [] then [':']
    else
      if r2.dropWhile pyWs = [] then r2.drop (r2.length - 1)
      else r2.dropWhile pyWs
  | rest =>
    if rest.dropWhile pyWs = [] then rest.drop (rest.length - 1)
    else rest.dropWhile pyWs

/-- After a marker matched, the rest of the pattern `:?\s*(.+)` matches
exactly when at least one character remains. -/
def faTail (rest : List Char) : Option (List Char) :=
  if rest = [] then none else some (group2 rest)

/-- Attempt of the final-answer pattern at the current position: the
three alternatives have pairwise distinct (case-insensitive) first
letters, so at most one can match here. -/
def faMatch (l : List Char) : Option (List Char) :=
  if ciPre faP1 l then faTail (l.drop 12)
  else if ciPre faP2 l then faTail (l.drop 13)
  else if ciPre faP3 l then faTail (l.drop 6)
  else none

def bOpen : List Char := "<strong>Final Answer: ".toList
def bClose : List Char := "</strong>".toList

/-- The final-answer substitution of source line 53:
`re.sub(r'(Final answer|The answer is|Result):?\s*(.+)',
r'<strong>Final Answer: \2</strong>', text, flags=IGNORECASE|DOTALL)`.
The pattern is unanchored, the scan is leftmost, and a successful match
always reaches the end of the string, so at most one replacement
happens. -/
def faSub : List Char → List Char
  | [] => []
  | c :: cs =>
    match faMatch (c :: cs) with
    | some g2 => bOpen ++ g2 ++ bClose
    | none => c :: faSub cs

/-- Python `text.split('\n')`. -/
def splitNl : List Char → List (List Char)
  | [] => [[]]
  | c :: cs =>
    if c = '\n' then [] :: splitNl cs
    else
      match splitNl cs with
      | [] => [[c]]
      | x :: xs => (c :: x) :: xs

/-- Continuation of the step regex `^\d+[\)\.]\s` after the first digit:
possibly more digits, then a dot or closing parenthesis, then one
whitespace character. -/
def stepRest : List Char → Bool
  | [] => false
  | c :: cs =>
    if c.isDigit then stepRest cs
    else if c = '.' ∨ c = ')' then headWs cs
    else false

/-- `re.match(r'^\d+[\)\.]\s', line)` of source line 61. -/
def stepMatch : List Char → Bool
  | [] => false
  | c :: cs => if c.isDigit then stepRest cs else false

/-- Python `line.index(' ')`: position of the first literal space, or
none (in which case the source raises ValueError). -/
def pyIndexSpace : List Char → Option Nat
  | [] => none
  | c :: cs =>
    if c = ' ' then some 0 else (pyIndexSpace cs).map (· + 1)

def olOpen : List Char := "<ol>".toList
def olClose : List Char := "</ol>".toList

/-- The line loop of source lines 56-74.  Returns none when a matching
step line holds no literal space, where the source raises ValueError
from `line.index(' ')`. -/
def stepLines : Bool → List (List Char) → Option (List (List Char))
  | true, [] => some [olClose]
  | false, [] => some []
  | inL, line :: rest =>
    if stepMatch line then
      match pyIndexSpace line with
      | none => none
      | some i =>
        if inL then
          (stepLines true rest).map (fun r =>
            ("<li>".toList ++ line.drop (i + 1) ++ "</li>".toList) :: r)
        else
          (stepLines true rest).map (fun r =>
            olOpen :: ("<li>".toList ++ line.drop (i + 1) ++ "</li>".toList) :: r)
    else
      if inL then (stepLines false rest).map (fun r => olClose :: line :: r)
      else (stepLines false rest).map (fun r => line :: r)

/-- Python `'<br>'.join(formatted_lines)`. -/
def joinBr : List (List Char) → List Char
  | [] => []
  | [x] => x
  | x :: xs => x ++ "<br>".toList ++ joinBr xs

/-- `format_output` of the source: strip, blank-line collapse,
final-answer emphasis, then the numbered-step listing joined by the
line-break marker.  none models the ValueError escape. -/
def format_output (l : List Char) : Option (List Char) :=
  (stepLines false (splitNl (faSub (collapseBlank (pyStrip l))))).map joinBr

/- ---------------------------------------------------------------
   Instrumented step listing: identical control flow, but the emitted
   pieces are tagged so that emitted list-container tokens can be told
   apart from pass-through text.
   --------------------------------------------------------------- -/

inductive Tok : Type
  | olO : Tok
  | olC : Tok
  | item : List Char → Tok
  | plain : List Char → Tok
deriving DecidableEq

def renderTok : Tok → List Char
  | .olO => olOpen
  | .olC => olClose
  | .item c => "<li>".toList ++ c ++ "</li>".toList
  | .plain l => l

def renderToks (t : List Tok) : List (List Char) := t.map renderTok

/-- Tagged twin of `stepLines`. -/
def stepLinesT : Bool → List (List Char) → Option (List Tok)
  | true, [] => some [.olC]
  | false, [] => some []
  | inL, line :: rest =>
    if stepMatch line then
      match pyIndexSpace line with
      | none => none
      | some i =>
        if inL then
          (stepLinesT true rest).map (fun r => Tok.item (line.drop (i + 1)) :: r)
        else
          (stepLinesT true rest).map (fun r =>
            Tok.olO :: Tok.item (line.drop (i + 1)) :: r)
    else
      if inL then (stepLinesT false rest).map (fun r => Tok.olC :: Tok.plain line :: r)
      else (stepLinesT false rest).map (fun r => Tok.plain line :: r)

/-- Projection keeping only the emitted container tokens:
true for an opening token, false for a closing one. -/
def olMark : Tok → Option Bool
  | .olO => some true
  | .olC => some false
  | _ => none

def olMarks (t : List Tok) : List Bool := t.filterMap olMark

/-- The marks alternate open, close, open, close, ... and end closed. -/
def altOC : List Bool → Bool
  | [] => true
  | true :: false :: r => altOC r
  | _ => false

/- ---------------------------------------------------------------
   The two HTTP handlers (src/app.py lines 78-179)
   --------------------------------------------------------------- -/

inductive Provider : Type
  | claude : Provider
  | gpt4 : Provider
deriving DecidableEq

/-- Python truthiness of an optional JSON string field. -/
def truthyS : Option (List Char) → Bool
  | none => false
  | some s => !s.isEmpty

/-- `solve_with_claude` (lines 78-90) with the completion call mocked by
an Except value: a raising call is rendered as the Error string, and a
ValueError escaping from format_output is caught by the same handler. -/
def solve_with_claude (gw : Except (List Char) (List Char)) : List Char :=
  match gw with
  | .error e => "Error: ".toList ++ e
  | .ok comp =>
    match format_output (format_exponents comp) with
    | some r => r
    | none => "Error: substring not found".toList

/-- `solve_with_gpt4` (lines 92-106), same error convention. -/
def solve_with_gpt4 (gw : Except (List Char) (List Char)) : List Char :=
  match gw with
  | .error e => "Error: ".toList ++ e
  | .ok comp =>
    match format_output (format_exponents comp) with
    | some r => r
    | none => "Error: substring not found".toList

structure SolveReq : Type where
  problemType : Option (List Char)
  expression : Option (List Char)

inductive SolveBody : Type
  | ok : List Char → List Char → List Char → List Char → SolveBody
  | err : List Char → SolveBody
deriving DecidableEq

structure SolveOut : Type where
  status : Nat
  body : SolveBody
  calls : List Provider
deriving DecidableEq

/-- The `/api/solve` handler `solve_math` (lines 108-136); the `calls`
field records which provider clients the executed path invokes. -/
def solveEndpoint (data : Option SolveReq)
    (cg gg : Except (List Char) (List Char)) : SolveOut :=
  match data with
  | none => ⟨400, .err ("No JSON data received".toList), []⟩
  | some d =>
    if truthyS d.problemType ∧ truthyS d.expression then
      ⟨200,
        .ok (solve_with_claude cg) (solve_with_gpt4 gg)
          (d.problemType.getD []) (d.expression.getD []),
        [.claude, .gpt4]⟩
    else ⟨400, .err ("Invalid input".toList), []⟩

structure ChatReq : Type where
  model : Option (List Char)
  message : Option (List Char)
  context : List Char

inductive ChatBody : Type
  | result : List Char → ChatBody
  | err : List Char → ChatBody
deriving DecidableEq

structure ChatOut : Type where
  status : Nat
  body : ChatBody
  calls : List Provider
deriving DecidableEq

/-- The `/api/chat` handler (lines 138-179).  The provider calls are not
individually guarded: an exception from the chosen completion call (or a
ValueError from format_output) propagates to the outer handler, which
answers 500 with the error text. -/
def chatEndpoint (data : Option ChatReq)
    (cg gg : Except (List Char) (List Char)) : ChatOut :=
  match data with
  | none => ⟨400, .err ("No JSON data received".toList), []⟩
  | some d =>
    if truthyS d.model ∧ truthyS d.message then
      if d.model = some ("claude".toList) then
        match cg with
        | .error e => ⟨500, .err ("An error occurred: ".toList ++ e), [.claude]⟩
        | .ok comp =>
          match format_output (format_exponents comp) with
          | none =>
            ⟨500, .err ("An error occurred: substring not found".toList), [.claude]⟩
          | some r => ⟨200, .result r, [.claude]⟩
      else if d.model = some ("gpt4".toList) then
        match gg with
        | .error e => ⟨500, .err ("An error occurred: ".toList ++ e), [.gpt4]⟩
        | .ok comp =>
          match format_output (format_exponents comp) with
          | none =>
            ⟨500, .err ("An error occurred: substring not found".toList), [.gpt4]⟩
          | some r => ⟨200, .result r, [.gpt4]⟩
      else ⟨400, .err ("Invalid model specified".toList), []⟩
    else ⟨400, .err ("Invalid input".toList), []⟩

/- ---------------------------------------------------------------
   Substring occurrence counting
   --------------------------------------------------------------- -/

/-- Is the first list a prefix of the second (Boolean). -/
def preOf : List Char → List Char → Bool
  | [], _ => true
  | _ :: _, [] => false
  | p :: ps, c :: cs => p = c && preOf ps cs

/-- Number of positions of the text at which the pattern occurs. -/
def countOcc (pat : List Char) : List Char → Nat
  | [] => if preOf pat [] then 1 else 0
  | c :: cs => (if preOf pat (c :: cs) then 1 else 0) + countOcc pat cs

/- ---------------------------------------------------------------
   format_exponents: the legacy literal rules are dead code
   --------------------------------------------------------------- -/

/-- No caret in the list is immediately followed by a digit. -/
def noCaretDig : List Char → Bool
  | [] => true
  | '^' :: c :: cs => (!c.isDigit) && noCaretDig (c :: cs)
  | _ :: cs => noCaretDig cs

theorem noCaretDig_cons_ne (c : Char) (l : List Char) (h : c = '^' → False) :
    noCaretDig (c :: l) = noCaretDig l := by
  rw [noCaretDig.eq_def]
  split
  · simp_all
  · simp_all
  · simp_all

theorem noCaretDig_caret (l : List Char) :
    noCaretDig ('^' :: l) = ((!headDig l) && noCaretDig l) := by
  cases l with
  | nil => decide
  | cons d ds => rfl

theorem noCaretDig_append_safe (A X : List Char) (h : ∀ a ∈ A, a = '^' → False) :
    noCaretDig (A ++ X) = noCaretDig X := by
  induction A with
  | nil => rfl
  | cons a A ih =>
    rw [List.cons_append, noCaretDig_cons_ne a _ (h a (by simp)),
      ih (fun x hx => h x (by simp [hx]))]


theorem scGo_false_cons (c : Char) (cs : List Char) :
    scGo false (c :: cs) =
      if c = '^' ∧ headDig cs then "<sup>".toList ++ scGo true cs
      else c :: scGo false cs := rfl

theorem scGo_true_cons (c : Char) (cs : List Char) :
    scGo true (c :: cs) =
      if c.isDigit then c :: scGo true cs
      else if c = '^' ∧ headDig cs then
        "</sup>".toList ++ "<sup>".toList ++ scGo true cs
      else "</sup>".toList ++ c :: scGo false cs := rfl

theorem headDig_scGo (cs : List Char) : headDig (scGo false cs) = headDig cs := by
  cases cs with
  | nil => rfl
  | cons c cs =>
    rw [scGo_false_cons]
    by_cases h : c = '^' ∧ headDig cs
    · rw [if_pos h]
      obtain ⟨h1, _⟩ := h
      subst h1
      rfl
    · rw [if_neg h]
      rfl

theorem noCaretDig_cons_scGo (c : Char) (cs : List Char)
    (h : ¬(c = '^' ∧ headDig cs = true))
    (ih : noCaretDig (scGo false cs) = true) :
    noCaretDig (c :: scGo false cs) = true := by
  by_cases hc : c = '^'
  · subst hc
    have hd : headDig cs = false := by
      by_contra hcon
      exact h ⟨rfl, by simpa using hcon⟩
    rw [noCaretDig_caret, headDig_scGo, hd]
    simpa using ih
  · rw [noCaretDig_cons_ne c _ (fun he => hc he)]
    exact ih

theorem noCaretDig_scGo (l : List Char) : ∀ b, noCaretDig (scGo b l) = true := by
  induction l with
  | nil =>
    intro b
    cases b <;> decide
  | cons c cs ih =>
    intro b
    cases b with
    | false =>
      rw [scGo_false_cons]
      by_cases h : c = '^' ∧ headDig cs
      · rw [if_pos h, noCaretDig_append_safe _ _ (by decide)]
        exact ih true
      · rw [if_neg h]
        exact noCaretDig_cons_scGo c cs (by simpa using h) (ih false)
    | true =>
      rw [scGo_true_cons]
      by_cases hdig : c.isDigit
      · rw [if_pos hdig]
        have hc : c = '^' → False := by
          intro he
          subst he
          exact absurd hdig (by decide)
        rw [noCaretDig_cons_ne c _ hc]
        exact ih true
      · rw [if_neg hdig]
        by_cases h : c = '^' ∧ headDig cs
        · rw [if_pos h, noCaretDig_append_safe _ _ (by decide)]
          exact ih true
        · rw [if_neg h, noCaretDig_append_safe _ _ (by decide)]
          exact noCaretDig_cons_scGo c cs (by simpa using h) (ih false)

theorem noCaretDig_subCaret (l : List Char) : noCaretDig (subCaret l) = true :=
  noCaretDig_scGo l false

theorem noCaretDig_tail (x : Char) (xs : List Char)
    (h : noCaretDig (x :: xs) = true) : noCaretDig xs = true := by
  by_cases hx : x = '^'
  · subst hx
    rw [noCaretDig_caret] at h
    exact ((Bool.and_eq_true _ _).mp h).2
  · rwa [noCaretDig_cons_ne x _ (fun he => hx he)] at h

theorem litSub_cons_ne (d g a : Char) (as : List Char)
    (h : ∀ c cs, a :: as = 'x' :: '^' :: c :: cs → False) :
    litSub d g (a :: as) = a :: litSub d g as := by
  rw [litSub.eq_def]
  split
  · rename_i c cs heq
    exact ((h c cs heq)).elim
  · rename_i c cs x heq
    injection heq with h1 h2
    subst h1
    subst h2
    rfl
  · rename_i heq
    exact (List.cons_ne_nil a as heq).elim

theorem litSub_id_aux (d g : Char) (hd : d.isDigit = true) :
    ∀ n l, l.length ≤ n → noCaretDig l = true → litSub d g l = l := by
  intro n
  induction n with
  | zero =>
    intro l hl _
    rw [List.eq_nil_of_length_eq_zero (Nat.le_zero.mp hl)]
    rfl
  | succ n ih =>
    intro l hl hnc
    rcases l with _ | ⟨a, _ | ⟨b, _ | ⟨c, cs⟩⟩⟩
    · rfl
    · rw [litSub_cons_ne d g a [] (by intro c cs h; simp at h)]
      rfl
    · rw [litSub_cons_ne d g a [b] (by intro c cs h; simp at h),
        litSub_cons_ne d g b [] (by intro c cs h; simp at h)]
      rfl
    · by_cases hx : a = 'x' ∧ b = '^'
      · obtain ⟨ha, hb⟩ := hx
        subst ha
        subst hb
        rw [noCaretDig_cons_ne 'x' _ (by decide), noCaretDig_caret] at hnc
        have hcd : c.isDigit = false := by
          have h1 := ((Bool.and_eq_true _ _).mp hnc).1
          simpa [headDig] using h1
        have hnc2 : noCaretDig (c :: cs) = true := ((Bool.and_eq_true _ _).mp hnc).2
        have heq1 : litSub d g ('x' :: '^' :: c :: cs) =
            if c = d then 'x' :: g :: litSub d g cs
            else 'x' :: '^' :: litSub d g (c :: cs) := rfl
        rw [heq1]
        have hcd2 : ¬ c = d := by
          intro h
          subst h
          rw [hd] at hcd
          exact Bool.noConfusion hcd
        rw [if_neg hcd2, ih (c :: cs) (by simp at hl ⊢; omega) hnc2]
      · rw [litSub_cons_ne d g a _ (by
          intro c' cs' h
          injection h with h1 h2
          injection h2 with h3 h4
          exact hx ⟨h1, h3⟩)]
        rw [ih (b :: c :: cs) (by simp at hl ⊢; omega)
          (noCaretDig_tail a _ hnc)]

theorem litSub_id (d g : Char) (hd : d.isDigit = true) (l : List Char)
    (hnc : noCaretDig l = true) : litSub d g l = l :=
  litSub_id_aux d g hd l.length l le_rfl hnc

theorem format_exponents_eq_subCaret (l : List Char) :
    format_exponents l = subCaret l := by
  have h := noCaretDig_subCaret l
  unfold format_exponents
  rw [litSub_id '2' '²' (by decide) _ h, litSub_id '3' '³' (by decide) _ h,
    litSub_id '4' '⁴' (by decide) _ h, litSub_id '5' '⁵' (by decide) _ h,
    litSub_id '6' '⁶' (by decide) _ h, litSub_id '7' '⁷' (by decide) _ h,
    litSub_id '8' '⁸' (by decide) _ h, litSub_id '9' '⁹' (by decide) _ h]

/- ---------------------------------------------------------------
   Occurrence counting lemmas
   --------------------------------------------------------------- -/

theorem countOcc_cons (pat : List Char) (c : Char) (cs : List Char) :
    countOcc pat (c :: cs) =
      (if preOf pat (c :: cs) then 1 else 0) + countOcc pat cs := rfl

theorem preOf_cons_ne {p c : Char} (ps cs : List Char) (h : ¬ p = c) :
    preOf (p :: ps) (c :: cs) = false := by
  simp [preOf, ciEq, h]

theorem countOcc_cons_ne {p c : Char} (ps X : List Char) (h : ¬ p = c) :
    countOcc (p :: ps) (c :: X) = countOcc (p :: ps) X := by
  rw [countOcc_cons, preOf_cons_ne _ _ h]
  simp

theorem pyWs_ne {a b : Char} (ha : pyWs a = false) (hb : pyWs b = true) :
    ¬ a = b := by
  intro he
  subst he
  rw [ha] at hb
  exact Bool.noConfusion hb

theorem countOcc_all_ws {p : Char} (ps : List Char) (hp : pyWs p = false) :
    ∀ W, (∀ c ∈ W, pyWs c = true) → countOcc (p :: ps) W = 0 := by
  intro W
  induction W with
  | nil => intro _; rfl
  | cons w W' ih =>
    intro hW
    rw [countOcc_cons_ne _ _ (pyWs_ne hp (hW w (by simp)))]
    exact ih (fun c hc => hW c (by simp [hc]))

theorem preOf_app (pat Z : List Char)
    (hbase : ∀ n, n < pat.length → preOf (pat.drop n) Z = false) :
    ∀ s, preOf pat (s ++ Z) = preOf pat s := by
  intro s
  induction s generalizing pat with
  | nil =>
    cases pat with
    | nil => rfl
    | cons p ps =>
      have h0 := hbase 0 (by simp)
      simpa using h0
  | cons a s' ih =>
    cases pat with
    | nil => rfl
    | cons p ps =>
      have hb : ∀ n, n < ps.length → preOf (ps.drop n) Z = false := by
        intro n hn
        exact hbase (n + 1) (by simp; omega)
      show (decide (p = a) && preOf ps (s' ++ Z)) = (decide (p = a) && preOf ps s')
      rw [ih ps hb]

theorem countOcc_append_right_zero {p : Char} (ps Z : List Char)
    (h0 : countOcc (p :: ps) Z = 0)
    (hbase : ∀ n, n < (p :: ps).length → preOf ((p :: ps).drop n) Z = false) :
    ∀ Y, countOcc (p :: ps) (Y ++ Z) = countOcc (p :: ps) Y := by
  intro Y
  induction Y with
  | nil => simpa using h0
  | cons c Y' ih =>
    rw [List.cons_append, countOcc_cons, countOcc_cons, ← List.cons_append,
      preOf_app (p :: ps) Z hbase (c :: Y'), ih]

theorem hbase_ws (pat : List Char) (hpat : ∀ c ∈ pat, pyWs c = false)
    (W : List Char) (hW : ∀ c ∈ W, pyWs c = true) :
    ∀ n, n < pat.length → preOf (pat.drop n) W = false := by
  intro n hn
  rw [List.drop_eq_getElem_cons hn]
  cases W with
  | nil => rfl
  | cons w W' =>
    exact preOf_cons_ne _ _
      (pyWs_ne (hpat _ (List.getElem_mem hn)) (hW w (by simp)))

theorem countOcc_trimR {p : Char} (ps : List Char)
    (hpat : ∀ c ∈ p :: ps, pyWs c = false) (l : List Char) :
    countOcc (p :: ps) (trimR l) = countOcc (p :: ps) l := by
  have hdec : l = trimR l ++ (l.reverse.takeWhile pyWs).reverse := by
    unfold trimR
    rw [← List.reverse_append, List.takeWhile_append_dropWhile, List.reverse_reverse]
  have hW : ∀ c ∈ (l.reverse.takeWhile pyWs).reverse, pyWs c = true := by
    intro c hc
    rw [List.mem_reverse] at hc
    exact List.mem_takeWhile_imp hc
  conv_rhs => rw [hdec]
  rw [countOcc_append_right_zero ps _
    (countOcc_all_ws ps (hpat p (by simp)) _ hW)
    (hbase_ws _ hpat _ hW)]

theorem countOcc_dropWhileL {p : Char} (ps : List Char) (hp : pyWs p = false)
    (l : List Char) :
    countOcc (p :: ps) (l.dropWhile pyWs) = countOcc (p :: ps) l := by
  induction l with
  | nil => rfl
  | cons c l' ih =>
    by_cases hc : pyWs c = true
    · rw [List.dropWhile_cons_of_pos hc, ih,
        countOcc_cons_ne _ _ (pyWs_ne hp hc)]
    · rw [List.dropWhile_cons_of_neg (by simpa using hc)]

theorem countOcc_pyStrip {p : Char} (ps : List Char)
    (hpat : ∀ c ∈ p :: ps, pyWs c = false) (l : List Char) :
    countOcc (p :: ps) (pyStrip l) = countOcc (p :: ps) l := by
  unfold pyStrip
  rw [countOcc_trimR ps hpat, countOcc_dropWhileL ps (hpat p (by simp))]

/- ---------------------------------------------------------------
   faSub lemmas
   --------------------------------------------------------------- -/

theorem faSub_cons (c : Char) (cs : List Char) :
    faSub (c :: cs) =
      match faMatch (c :: cs) with
      | some g2 => bOpen ++ g2 ++ bClose
      | none => c :: faSub cs := rfl

theorem faSub_cons_none {c : Char} {cs : List Char}
    (h : faMatch (c :: cs) = none) : faSub (c :: cs) = c :: faSub cs := by
  rw [faSub_cons, h]

theorem faSub_cons_some {c : Char} {cs g2 : List Char}
    (h : faMatch (c :: cs) = some g2) :
    faSub (c :: cs) = bOpen ++ g2 ++ bClose := by
  rw [faSub_cons, h]

theorem ciPre_head {p c : Char} {ps cs : List Char}
    (h : ciPre (p :: ps) (c :: cs) = true) : p.toLower = c.toLower := by
  have h1 : (ciEq p c && ciPre ps cs) = true := h
  exact of_decide_eq_true ((Bool.and_eq_true _ _).mp h1).1

theorem faMatch_head {c : Char} {cs g2 : List Char}
    (h : faMatch (c :: cs) = some g2) :
    c.toLower = 'f' ∨ c.toLower = 't' ∨ c.toLower = 'r' := by
  unfold faMatch at h
  split at h
  · rename_i h1
    left
    have : Char.toLower 'F' = c.toLower := ciPre_head h1
    simpa using this.symm
  · split at h
    · rename_i h1
      right; left
      have : Char.toLower 'T' = c.toLower := ciPre_head h1
      simpa using this.symm
    · split at h
      · rename_i h1
        right; right
        have : Char.toLower 'R' = c.toLower := ciPre_head h1
        simpa using this.symm
      · exact Option.noConfusion h

theorem preOf_faSub (l : List Char) : ∀ pat : List Char,
    (∀ ch ∈ pat, (¬ ch = '<') ∧ ¬ ch.toLower = 'f' ∧
      ¬ ch.toLower = 't' ∧ ¬ ch.toLower = 'r') →
    preOf pat (faSub l) = preOf pat l := by
  induction l with
  | nil => intro pat _; rfl
  | cons c cs ih =>
    intro pat hpat
    cases hm : faMatch (c :: cs) with
    | none =>
      rw [faSub_cons_none hm]
      cases pat with
      | nil => rfl
      | cons p ps =>
        show (decide (p = c) && preOf ps (faSub cs)) =
          (decide (p = c) && preOf ps cs)
        rw [ih ps (fun ch hch => hpat ch (by simp [hch]))]
    | some g2 =>
      rw [faSub_cons_some hm]
      cases pat with
      | nil => rfl
      | cons p ps =>
        have hc := faMatch_head hm
        have hpc : ¬ p = c := by
          intro he
          subst he
          obtain ⟨_, hf, ht, hr⟩ := hpat p (by simp)
          rcases hc with h | h | h
          exacts [hf h, ht h, hr h]
        have hlt : ¬ p = '<' := (hpat p (by simp)).1
        have hsh : bOpen ++ g2 ++ bClose =
            '<' :: ("strong>Final Answer: ".toList ++ g2 ++ bClose) := rfl
        rw [hsh, preOf_cons_ne _ _ hlt, preOf_cons_ne _ _ hpc]

theorem ciPre_take_mem : ∀ (p l : List Char), ciPre p l = true →
    ∀ ch ∈ l.take p.length, ∃ q ∈ p, q.toLower = ch.toLower := by
  intro p
  induction p with
  | nil =>
    intro l _ ch hch
    simp at hch
  | cons q qs ih =>
    intro l h ch hch
    cases l with
    | nil => exact Bool.noConfusion h
    | cons c cs =>
      have h1 : (ciEq q c && ciPre qs cs) = true := h
      obtain ⟨hq, hrest⟩ := (Bool.and_eq_true _ _).mp h1
      simp only [List.length_cons, List.take_succ_cons, List.mem_cons] at hch
      rcases hch with he | hm
      · exact ⟨q, by simp, by rw [he]; exact of_decide_eq_true hq⟩
      · obtain ⟨q', hq', hq2⟩ := ih cs hrest ch hm
        exact ⟨q', by simp [hq'], hq2⟩

theorem group2_colon (r2 : List Char) :
    group2 (':' :: r2) =
      if r2 = [] then [':']
      else
        if r2.dropWhile pyWs = [] then r2.drop (r2.length - 1)
        else r2.dropWhile pyWs := rfl

theorem group2_other {c : Char} (r2 : List Char) (hc : ¬ c = ':') :
    group2 (c :: r2) =
      if (c :: r2).dropWhile pyWs = [] then (c :: r2).drop ((c :: r2).length - 1)
      else (c :: r2).dropWhile pyWs := by
  rw [group2.eq_def]
  split
  · rename_i heq
    exact (List.cons_ne_nil c r2 heq).elim
  · rename_i r2' heq
    injection heq with h1 h2
    exact (hc h1).elim
  · rfl

theorem group2_decomp : ∀ rest : List Char, rest ≠ [] →
    ∃ B, rest = B ++ group2 rest ∧ ∀ ch ∈ B, ch = ':' ∨ pyWs ch = true := by
  intro rest hne
  rcases rest with _ | ⟨c, r2⟩
  · exact (hne rfl).elim
  by_cases hcol : c = ':'
  · subst hcol
    rw [group2_colon]
    by_cases h2 : r2 = []
    · subst h2
      exact ⟨[], by simp, by simp⟩
    · rw [if_neg h2]
      by_cases h3 : r2.dropWhile pyWs = []
      · rw [if_pos h3]
        refine ⟨':' :: r2.take (r2.length - 1), ?_, ?_⟩
        · simp [List.take_append_drop]
        · intro ch hch
          rcases List.mem_cons.mp hch with he | hm
          · exact Or.inl he
          · exact Or.inr (List.dropWhile_eq_nil_iff.mp h3 ch
              (List.take_subset _ _ hm))
      · rw [if_neg h3]
        refine ⟨':' :: r2.takeWhile pyWs, ?_, ?_⟩
        · simp [List.takeWhile_append_dropWhile]
        · intro ch hch
          rcases List.mem_cons.mp hch with he | hm
          · exact Or.inl he
          · exact Or.inr (List.mem_takeWhile_imp hm)
  · rw [group2_other r2 hcol]
    by_cases h3 : (c :: r2).dropWhile pyWs = []
    · rw [if_pos h3]
      refine ⟨(c :: r2).take ((c :: r2).length - 1), ?_, ?_⟩
      · rw [List.take_append_drop]
      · intro ch hch
        exact Or.inr (List.dropWhile_eq_nil_iff.mp h3 ch
          (List.take_subset _ _ hch))
    · rw [if_neg h3]
      refine ⟨(c :: r2).takeWhile pyWs, ?_, ?_⟩
      · rw [List.takeWhile_append_dropWhile]
      · intro ch hch
        exact Or.inr (List.mem_takeWhile_imp hch)

theorem faMatch_decomp_aux (P : List Char) (c : Char) (cs : List Char)
    (hci : ciPre P (c :: cs) = true) (hP : ¬ P = [])
    (hlow : ∀ q ∈ P, ¬ q.toLower = '<')
    (hne : ¬ (c :: cs).drop P.length = []) :
    ∃ A, c :: cs = A ++ group2 ((c :: cs).drop P.length) ∧ ¬ A = [] ∧
      (∀ ch ∈ A, ¬ ch = '<') ∧
      ∀ ch ∈ group2 ((c :: cs).drop P.length), ch ∈ c :: cs := by
  obtain ⟨B, hB, hBm⟩ := group2_decomp _ hne
  refine ⟨(c :: cs).take P.length ++ B, ?_, ?_, ?_, ?_⟩
  · rw [List.append_assoc, ← hB, List.take_append_drop]
  · cases P with
    | nil => exact (hP rfl).elim
    | cons p P' => simp
  · intro ch hch
    rcases List.mem_append.mp hch with hm | hm
    · obtain ⟨q, hq, hql⟩ := ciPre_take_mem P (c :: cs) hci ch hm
      intro he
      subst he
      have hlt : Char.toLower '<' = '<' := by decide
      rw [hlt] at hql
      exact hlow q hq hql
    · rcases hBm ch hm with he | hw
      · intro hlt
        rw [hlt] at he
        exact absurd he (by decide)
      · intro hlt
        rw [hlt] at hw
        exact absurd hw (by decide)
  · intro ch hch
    have hm : ch ∈ (c :: cs).drop P.length := by
      rw [hB]
      exact List.mem_append_right _ hch
    exact List.drop_subset _ _ hm

theorem faMatch_decomp {c : Char} {cs g2 : List Char}
    (h : faMatch (c :: cs) = some g2) :
    ∃ A, c :: cs = A ++ g2 ∧ ¬ A = [] ∧ (∀ ch ∈ A, ¬ ch = '<') ∧
      ∀ ch ∈ g2, ch ∈ c :: cs := by
  unfold faMatch at h
  split at h
  · rename_i h1
    unfold faTail at h
    split at h
    · exact Option.noConfusion h
    · rename_i hne
      injection h with h2
      subst h2
      have hlen : (12 : Nat) = faP1.length := by decide
      rw [hlen] at hne ⊢
      exact faMatch_decomp_aux faP1 c cs h1 (by decide) (by decide) hne
  · split at h
    · rename_i h1
      unfold faTail at h
      split at h
      · exact Option.noConfusion h
      · rename_i hne
        injection h with h2
        subst h2
        have hlen : (13 : Nat) = faP2.length := by decide
        rw [hlen] at hne ⊢
        exact faMatch_decomp_aux faP2 c cs h1 (by decide) (by decide) hne
    · split at h
      · rename_i h1
        unfold faTail at h
        split at h
        · exact Option.noConfusion h
        · rename_i hne
          injection h with h2
          subst h2
          have hlen : (6 : Nat) = faP3.length := by decide
          rw [hlen] at hne ⊢
          exact faMatch_decomp_aux faP3 c cs h1 (by decide) (by decide) hne
      · exact Option.noConfusion h

theorem countOcc_append_left_nolt (ps A X : List Char)
    (hA : ∀ ch ∈ A, ¬ ch = '<') :
    countOcc ('<' :: ps) (A ++ X) = countOcc ('<' :: ps) X := by
  induction A with
  | nil => rfl
  | cons a A' ih =>
    rw [List.cons_append, countOcc_cons_ne _ _ (fun he => hA a (by simp) he.symm)]
    exact ih (fun ch hch => hA ch (by simp [hch]))

theorem cnt_bOpen_olO (X : List Char) :
    countOcc ('<' :: "ol>".toList) (bOpen ++ X) =
      countOcc ('<' :: "ol>".toList) X := by
  simp [countOcc, preOf, bOpen]

theorem cnt_bOpen_olC (X : List Char) :
    countOcc ('<' :: "/ol>".toList) (bOpen ++ X) =
      countOcc ('<' :: "/ol>".toList) X := by
  simp [countOcc, preOf, bOpen]

theorem countOcc_faSub (pat : List Char)
    (hpat : pat = olOpen ∨ pat = olClose) (l : List Char) :
    countOcc pat (faSub l) = countOcc pat l := by
  induction l with
  | nil => rfl
  | cons c cs ih =>
    cases hm : faMatch (c :: cs) with
    | none =>
      rw [faSub_cons_none hm, countOcc_cons, countOcc_cons, ih]
      have hpre : preOf pat (c :: faSub cs) = preOf pat (c :: cs) := by
        rcases hpat with he | he <;> subst he
        · show (decide ('<' = c) && preOf ("ol>".toList) (faSub cs)) =
            (decide ('<' = c) && preOf ("ol>".toList) cs)
          rw [preOf_faSub cs _ (by decide)]
        · show (decide ('<' = c) && preOf ("/ol>".toList) (faSub cs)) =
            (decide ('<' = c) && preOf ("/ol>".toList) cs)
          rw [preOf_faSub cs _ (by decide)]
      rw [hpre]
    | some g2 =>
      rw [faSub_cons_some hm]
      obtain ⟨A, hA, _, hAlt, _⟩ := faMatch_decomp hm
      rw [hA, List.append_assoc]
      rcases hpat with he | he <;> subst he
      · simp only [show olOpen = '<' :: "ol>".toList from rfl]
        rw [cnt_bOpen_olO, countOcc_append_right_zero _ _ (by decide) (by decide) g2,
          countOcc_append_left_nolt _ _ _ hAlt]
      · simp only [show olClose = '<' :: "/ol>".toList from rfl]
        rw [cnt_bOpen_olC, countOcc_append_right_zero _ _ (by decide) (by decide) g2,
          countOcc_append_left_nolt _ _ _ hAlt]

/- ---------------------------------------------------------------
   Head and step-pattern analysis through faSub
   --------------------------------------------------------------- -/

theorem pyWs_elim {c : Char} (h : pyWs c = true) :
    c = ' ' ∨ c = '\t' ∨ c = '\n' ∨ c = '\r' ∨ c = '\x0b' ∨ c = '\x0c' := by
  simp [pyWs] at h
  tauto

theorem pyWs_not_phrase_head {c : Char} (h : pyWs c = true) :
    ¬ (c.toLower = 'f' ∨ c.toLower = 't' ∨ c.toLower = 'r') := by
  rcases pyWs_elim h with h1 | h1 | h1 | h1 | h1 | h1 <;> subst h1 <;> decide

theorem headWs_faSub (l : List Char) : headWs (faSub l) = headWs l := by
  cases l with
  | nil => rfl
  | cons c cs =>
    cases hm : faMatch (c :: cs) with
    | none => rw [faSub_cons_none hm]; rfl
    | some g2 =>
      rw [faSub_cons_some hm]
      have hsh : bOpen ++ g2 ++ bClose =
          '<' :: ("strong>Final Answer: ".toList ++ g2 ++ bClose) := rfl
      rw [hsh]
      show pyWs '<' = headWs (c :: cs)
      have hc := faMatch_head hm
      show pyWs '<' = pyWs c
      by_cases hw : pyWs c = true
      · exact absurd hc (pyWs_not_phrase_head hw)
      · simp at hw
        rw [hw]
        decide

theorem stepRest_cons (c : Char) (cs : List Char) :
    stepRest (c :: cs) =
      if c.isDigit then stepRest cs
      else if c = '.' ∨ c = ')' then headWs cs
      else false := rfl

theorem stepMatch_cons (c : Char) (cs : List Char) :
    stepMatch (c :: cs) = if c.isDigit then stepRest cs else false := rfl

theorem stepRest_faSub (l : List Char) (h : stepRest l = false) :
    stepRest (faSub l) = false := by
  induction l with
  | nil => exact h
  | cons c cs ih =>
    cases hm : faMatch (c :: cs) with
    | some g2 =>
      rw [faSub_cons_some hm]
      have hsh : bOpen ++ g2 ++ bClose =
          '<' :: ("strong>Final Answer: ".toList ++ g2 ++ bClose) := rfl
      rw [hsh, stepRest_cons]
      simp
    | none =>
      rw [faSub_cons_none hm, stepRest_cons]
      rw [stepRest_cons] at h
      by_cases hd : c.isDigit
      · rw [if_pos hd] at h ⊢
        exact ih h
      · rw [if_neg hd] at h ⊢
        by_cases hdel : c = '.' ∨ c = ')'
        · rw [if_pos hdel] at h ⊢
          rw [headWs_faSub]
          exact h
        · rw [if_neg hdel] at h ⊢

theorem stepMatch_faSub (l : List Char) (h : stepMatch l = false) :
    stepMatch (faSub l) = false := by
  cases l with
  | nil => exact h
  | cons c cs =>
    cases hm : faMatch (c :: cs) with
    | some g2 =>
      rw [faSub_cons_some hm]
      have hsh : bOpen ++ g2 ++ bClose =
          '<' :: ("strong>Final Answer: ".toList ++ g2 ++ bClose) := rfl
      rw [hsh, stepMatch_cons]
      simp
    | none =>
      rw [faSub_cons_none hm, stepMatch_cons]
      rw [stepMatch_cons] at h
      by_cases hd : c.isDigit
      · rw [if_pos hd] at h ⊢
        exact stepRest_faSub cs h
      · rw [if_neg hd] at h ⊢

theorem headWs_append {cs : List Char} (t : List Char) (h : headWs cs = true) :
    headWs (cs ++ t) = true := by
  cases cs with
  | nil => exact Bool.noConfusion h
  | cons c cs' => exact h

theorem stepRest_append_true {x : List Char} (t : List Char)
    (h : stepRest x = true) : stepRest (x ++ t) = true := by
  induction x with
  | nil => exact Bool.noConfusion h
  | cons c cs ih =>
    rw [stepRest_cons] at h
    rw [List.cons_append, stepRest_cons]
    by_cases hd : c.isDigit
    · rw [if_pos hd] at h ⊢
      exact ih h
    · rw [if_neg hd] at h ⊢
      by_cases hdel : c = '.' ∨ c = ')'
      · rw [if_pos hdel] at h ⊢
        exact headWs_append t h
      · rw [if_neg hdel] at h
        exact Bool.noConfusion h

theorem stepMatch_append_true {x : List Char} (t : List Char)
    (h : stepMatch x = true) : stepMatch (x ++ t) = true := by
  cases x with
  | nil => exact Bool.noConfusion h
  | cons c cs =>
    rw [stepMatch_cons] at h
    rw [List.cons_append, stepMatch_cons]
    by_cases hd : c.isDigit
    · rw [if_pos hd] at h ⊢
      exact stepRest_append_true t h
    · rw [if_neg hd] at h
      exact Bool.noConfusion h

theorem headWs_append_lt (cs t : List Char) (h : headWs cs = false) :
    headWs (cs ++ '<' :: t) = false := by
  cases cs with
  | nil => rfl
  | cons c cs' => exact h

theorem stepRest_append_br {x : List Char} (t : List Char)
    (h : stepRest x = false) : stepRest (x ++ '<' :: t) = false := by
  induction x with
  | nil =>
    rw [List.nil_append, stepRest_cons]
    simp
  | cons c cs ih =>
    rw [stepRest_cons] at h
    rw [List.cons_append, stepRest_cons]
    by_cases hd : c.isDigit
    · rw [if_pos hd] at h ⊢
      exact ih h
    · rw [if_neg hd] at h ⊢
      by_cases hdel : c = '.' ∨ c = ')'
      · rw [if_pos hdel] at h ⊢
        exact headWs_append_lt cs t h
      · rw [if_neg hdel] at h ⊢

theorem stepMatch_append_br {x : List Char} (t : List Char)
    (h : stepMatch x = false) : stepMatch (x ++ '<' :: t) = false := by
  cases x with
  | nil =>
    rw [List.nil_append, stepMatch_cons]
    simp
  | cons c cs =>
    rw [stepMatch_cons] at h
    rw [List.cons_append, stepMatch_cons]
    by_cases hd : c.isDigit
    · rw [if_pos hd] at h ⊢
      exact stepRest_append_br t h
    · rw [if_neg hd] at h ⊢

/- ---------------------------------------------------------------
   splitNl, joinBr, collapse and strip structure lemmas
   --------------------------------------------------------------- -/

theorem splitNl_cons (c : Char) (cs : List Char) :
    splitNl (c :: cs) =
      if c = '\n' then [] :: splitNl cs
      else
        match splitNl cs with
        | [] => [[c]]
        | x :: xs => (c :: x) :: xs := rfl

theorem splitNl_ne_nil (l : List Char) : ¬ splitNl l = [] := by
  induction l with
  | nil => simp [splitNl]
  | cons c cs ih =>
    rw [splitNl_cons]
    by_cases hc : c = '\n'
    · rw [if_pos hc]
      simp
    · rw [if_neg hc]
      cases hs : splitNl cs with
      | nil => simp
      | cons x xs => simp

theorem splitNl_no_nl (l : List Char) (h : ¬ '\n' ∈ l) :
    ∀ x ∈ splitNl l, ¬ '\n' ∈ x := by
  induction l with
  | nil =>
    intro x hx
    rw [show splitNl [] = [[]] from rfl] at hx
    simp at hx
    simp [hx]
  | cons c cs ih =>
    intro x hx
    rw [splitNl_cons] at hx
    by_cases hc : c = '\n'
    · exact absurd (hc ▸ List.mem_cons_self c cs) h
    · rw [if_neg hc] at hx
      have hcs : ¬ '\n' ∈ cs := fun hm => h (List.mem_cons_of_mem c hm)
      cases hs : splitNl cs with
      | nil => exact (splitNl_ne_nil cs hs).elim
      | cons y ys =>
        rw [hs] at hx
        rcases List.mem_cons.mp hx with he | hm
        · subst he
          intro hmem
          rcases List.mem_cons.mp hmem with he2 | hm2
          · exact hc he2.symm
          · exact ih hcs y (hs ▸ List.mem_cons_self y ys) hm2
        · exact ih hcs x (hs ▸ List.mem_cons_of_mem y hm)

theorem splitNl_single (l : List Char) (h : ¬ '\n' ∈ l) : splitNl l = [l] := by
  induction l with
  | nil => rfl
  | cons c cs ih =>
    have hc : ¬ c = '\n' := fun he => h (he ▸ List.mem_cons_self c cs)
    have hcs : ¬ '\n' ∈ cs := fun hm => h (List.mem_cons_of_mem c hm)
    rw [splitNl_cons, if_neg hc, ih hcs]

theorem splitNl_head (T : List Char) (h : headWs T = false) :
    ∃ l0 r, splitNl T = l0 :: r ∧ headWs l0 = false := by
  cases T with
  | nil => exact ⟨[], [], rfl, rfl⟩
  | cons c cs =>
    have hc : ¬ c = '\n' := by
      intro he
      subst he
      exact Bool.noConfusion h
    rw [splitNl_cons, if_neg hc]
    cases hs : splitNl cs with
    | nil => exact (splitNl_ne_nil cs hs).elim
    | cons y ys => exact ⟨c :: y, ys, rfl, h⟩

theorem joinBr_cons2 (x y : List Char) (ys : List (List Char)) :
    joinBr (x :: y :: ys) = x ++ "<br>".toList ++ joinBr (y :: ys) := rfl

theorem joinBr_no_nl (outs : List (List Char))
    (h : ∀ x ∈ outs, ¬ '\n' ∈ x) : ¬ '\n' ∈ joinBr outs := by
  induction outs with
  | nil => simp [joinBr]
  | cons x xs ih =>
    cases xs with
    | nil =>
      show ¬ '\n' ∈ joinBr [x]
      exact h x (by simp)
    | cons y ys =>
      rw [joinBr_cons2]
      intro hm
      rcases List.mem_append.mp hm with hm1 | hm2
      · rcases List.mem_append.mp hm1 with hm3 | hm4
        · exact h x (by simp) hm3
        · exact absurd hm4 (by decide)
      · exact ih (fun z hz => h z (List.mem_cons_of_mem x hz)) hm2

theorem stepMatch_joinBr (outs : List (List Char))
    (h : ∀ x r, outs = x :: r → stepMatch x = false) :
    stepMatch (joinBr outs) = false := by
  cases outs with
  | nil => rfl
  | cons x xs =>
    cases xs with
    | nil => exact h x [] rfl
    | cons y ys =>
      rw [joinBr_cons2, List.append_assoc]
      have hsh : "<br>".toList ++ joinBr (y :: ys) =
          '<' :: ("br>".toList ++ joinBr (y :: ys)) := rfl
      rw [hsh]
      exact stepMatch_append_br _ (h x _ rfl)

theorem headWs_joinBr (outs : List (List Char))
    (h : ∀ x r, outs = x :: r → headWs x = false) :
    headWs (joinBr outs) = false := by
  cases outs with
  | nil => rfl
  | cons x xs =>
    cases xs with
    | nil => exact h x [] rfl
    | cons y ys =>
      rw [joinBr_cons2, List.append_assoc]
      have hx := h x _ rfl
      cases x with
      | nil => rfl
      | cons c cs => exact hx

theorem flushRun_no_nl (pend : List Char) (h : ¬ '\n' ∈ pend) :
    flushRun pend = pend := by
  unfold flushRun
  rw [if_neg]
  rw [List.count_eq_zero.mpr h]
  omega

theorem collapseGo_cons (pend : List Char) (c : Char) (cs : List Char) :
    collapseGo pend (c :: cs) =
      if pyWs c then collapseGo (pend ++ [c]) cs
      else flushRun pend ++ c :: collapseGo [] cs := rfl

theorem collapseGo_no_nl (l : List Char) : ∀ pend, ¬ '\n' ∈ pend →
    ¬ '\n' ∈ l → collapseGo pend l = pend ++ l := by
  induction l with
  | nil =>
    intro pend hp _
    show flushRun pend = pend ++ []
    rw [flushRun_no_nl pend hp, List.append_nil]
  | cons c cs ih =>
    intro pend hp hl
    have hcs : ¬ '\n' ∈ cs := fun hm => hl (List.mem_cons_of_mem c hm)
    rw [collapseGo_cons]
    by_cases hw : pyWs c = true
    · rw [if_pos hw, ih (pend ++ [c]) (by
        intro hm
        rcases List.mem_append.mp hm with h1 | h1
        · exact hp h1
        · simp at h1
          exact hl (h1 ▸ List.mem_cons_self c cs)) hcs]
      simp
    · rw [if_neg hw, flushRun_no_nl pend hp, ih [] (by simp) hcs]
      simp

theorem collapseBlank_no_nl (l : List Char) (h : ¬ '\n' ∈ l) :
    collapseBlank l = l := by
  unfold collapseBlank
  rw [collapseGo_no_nl l [] (by simp) h]
  simp

theorem headWs_collapseBlank (X : List Char) (h : headWs X = false) :
    headWs (collapseBlank X) = false := by
  cases X with
  | nil => rfl
  | cons c cs =>
    show headWs (collapseGo [] (c :: cs)) = false
    have hw : pyWs c = false := h
    rw [collapseGo_cons, if_neg (by simp [hw])]
    show headWs ([] ++ c :: collapseGo [] cs) = false
    exact h

theorem trimR_decomp (l : List Char) :
    l = trimR l ++ (l.reverse.takeWhile pyWs).reverse := by
  unfold trimR
  rw [← List.reverse_append, List.takeWhile_append_dropWhile, List.reverse_reverse]

theorem mem_trimR {ch : Char} {l : List Char} (h : ch ∈ trimR l) : ch ∈ l := by
  rw [trimR_decomp l]
  exact List.mem_append_left _ h

theorem mem_pyStrip {ch : Char} {l : List Char} (h : ch ∈ pyStrip l) :
    ch ∈ l := by
  have h2 : ch ∈ l.dropWhile pyWs := mem_trimR h
  rw [← List.takeWhile_append_dropWhile pyWs l]
  exact List.mem_append_right _ h2

theorem headWs_dropWhile (l : List Char) :
    headWs (l.dropWhile pyWs) = false := by
  induction l with
  | nil => rfl
  | cons c cs ih =>
    by_cases hw : pyWs c = true
    · rw [List.dropWhile_cons_of_pos hw]
      exact ih
    · rw [List.dropWhile_cons_of_neg (by simpa using hw)]
      show pyWs c = false
      simpa using hw

theorem headWs_trimR (X : List Char) (h : headWs X = false) :
    headWs (trimR X) = false := by
  have hd := trimR_decomp X
  cases htr : trimR X with
  | nil => rfl
  | cons c cs =>
    rw [htr] at hd
    rw [hd] at h
    exact h

theorem headWs_pyStrip (l : List Char) : headWs (pyStrip l) = false :=
  headWs_trimR _ (headWs_dropWhile l)

theorem dropWhile_of_headWs (l : List Char) (h : headWs l = false) :
    l.dropWhile pyWs = l := by
  cases l with
  | nil => rfl
  | cons c cs => exact List.dropWhile_cons_of_neg (by simpa using h)

theorem stepMatch_trimR (l : List Char) (h : stepMatch l = false) :
    stepMatch (trimR l) = false := by
  by_contra hcon
  simp only [Bool.not_eq_false] at hcon
  have := stepMatch_append_true ((l.reverse.takeWhile pyWs).reverse) hcon
  rw [← trimR_decomp l] at this
  rw [h] at this
  exact Bool.noConfusion this

theorem stepMatch_pyStrip (l : List Char) (h1 : stepMatch l = false)
    (h2 : headWs l = false) : stepMatch (pyStrip l) = false := by
  unfold pyStrip
  rw [dropWhile_of_headWs l h2]
  exact stepMatch_trimR l h1

theorem faSub_no_nl (l : List Char) (h : ¬ '\n' ∈ l) : ¬ '\n' ∈ faSub l := by
  induction l with
  | nil => simp [faSub]
  | cons c cs ih =>
    cases hm : faMatch (c :: cs) with
    | none =>
      rw [faSub_cons_none hm]
      intro hmem
      rcases List.mem_cons.mp hmem with he | hmem2
      · exact h (he ▸ List.mem_cons_self c cs)
      · exact ih (fun hx => h (List.mem_cons_of_mem c hx)) hmem2
    | some g2 =>
      rw [faSub_cons_some hm]
      obtain ⟨A, _, _, _, hg2⟩ := faMatch_decomp hm
      intro hmem
      rcases List.mem_append.mp hmem with h1 | h1
      · rcases List.mem_append.mp h1 with h2 | h2
        · exact absurd h2 (by decide)
        · exact h (hg2 _ h2)
      · exact absurd h1 (by decide)

/- ---------------------------------------------------------------
   stepLines structure lemmas
   --------------------------------------------------------------- -/

theorem stepLines_false_cons (line : List Char) (rest : List (List Char)) :
    stepLines false (line :: rest) =
      if stepMatch line then
        match pyIndexSpace line with
        | none => none
        | some i =>
          (stepLines true rest).map (fun r =>
            olOpen :: ("<li>".toList ++ line.drop (i + 1) ++ "</li>".toList) :: r)
      else (stepLines false rest).map (fun r => line :: r) := rfl

theorem stepLines_true_cons (line : List Char) (rest : List (List Char)) :
    stepLines true (line :: rest) =
      if stepMatch line then
        match pyIndexSpace line with
        | none => none
        | some i =>
          (stepLines true rest).map (fun r =>
            ("<li>".toList ++ line.drop (i + 1) ++ "</li>".toList) :: r)
      else (stepLines false rest).map (fun r => olClose :: line :: r) := rfl

theorem stepLines_no_nl (ls : List (List Char)) : ∀ (b : Bool) outs,
    (∀ x ∈ ls, ¬ '\n' ∈ x) → stepLines b ls = some outs →
    ∀ x ∈ outs, ¬ '\n' ∈ x := by
  induction ls with
  | nil =>
    intro b outs _ h x hx
    cases b with
    | true =>
      injection h with h2
      subst h2
      simp at hx
      subst hx
      decide
    | false =>
      injection h with h2
      subst h2
      simp at hx
  | cons line rest ih =>
    intro b outs hls h x hx
    have hline : ¬ '\n' ∈ line := hls line (by simp)
    have hrest : ∀ y ∈ rest, ¬ '\n' ∈ y :=
      fun y hy => hls y (List.mem_cons_of_mem _ hy)
    have hitem : ∀ i, ¬ '\n' ∈ "<li>".toList ++ line.drop (i + 1) ++ "</li>".toList := by
      intro i hm
      rcases List.mem_append.mp hm with h1 | h1
      · rcases List.mem_append.mp h1 with h2 | h2
        · exact absurd h2 (by decide)
        · exact hline (List.drop_subset _ _ h2)
      · exact absurd h1 (by decide)
    cases b with
    | false =>
      rw [stepLines_false_cons] at h
      by_cases hsm : stepMatch line = true
      · rw [if_pos hsm] at h
        cases hidx : pyIndexSpace line with
        | none => rw [hidx] at h; exact Option.noConfusion h
        | some i =>
          rw [hidx] at h
          obtain ⟨r, hr, houts⟩ := Option.map_eq_some'.mp h
          subst houts
          rcases List.mem_cons.mp hx with he | hx2
          · subst he; decide
          · rcases List.mem_cons.mp hx2 with he | hx3
            · subst he; exact hitem i
            · exact ih true r hrest hr x hx3
      · rw [if_neg hsm] at h
        obtain ⟨r, hr, houts⟩ := Option.map_eq_some'.mp h
        subst houts
        rcases List.mem_cons.mp hx with he | hx2
        · subst he; exact hline
        · exact ih false r hrest hr x hx2
    | true =>
      rw [stepLines_true_cons] at h
      by_cases hsm : stepMatch line = true
      · rw [if_pos hsm] at h
        cases hidx : pyIndexSpace line with
        | none => rw [hidx] at h; exact Option.noConfusion h
        | some i =>
          rw [hidx] at h
          obtain ⟨r, hr, houts⟩ := Option.map_eq_some'.mp h
          subst houts
          rcases List.mem_cons.mp hx with he | hx2
          · subst he; exact hitem i
          · exact ih true r hrest hr x hx2
      · rw [if_neg hsm] at h
        obtain ⟨r, hr, houts⟩ := Option.map_eq_some'.mp h
        subst houts
        rcases List.mem_cons.mp hx with he | hx2
        · subst he; decide
        · rcases List.mem_cons.mp hx2 with he | hx3
          · subst he; exact hline
          · exact ih false r hrest hr x hx3

theorem stepLines_false_head (ls : List (List Char)) (outs : List (List Char))
    (h : stepLines false ls = some outs) :
    outs = [] ∨ (∃ r, outs = olOpen :: r) ∨
      (∃ l0 r rest, ls = l0 :: rest ∧ outs = l0 :: r ∧ stepMatch l0 = false) := by
  cases ls with
  | nil =>
    left
    injection h with h2
    exact h2.symm
  | cons line rest =>
    rw [stepLines_false_cons] at h
    by_cases hsm : stepMatch line = true
    · rw [if_pos hsm] at h
      cases hidx : pyIndexSpace line with
      | none => rw [hidx] at h; exact Option.noConfusion h
      | some i =>
        rw [hidx] at h
        obtain ⟨r, _, houts⟩ := Option.map_eq_some'.mp h
        right; left
        exact ⟨_, houts.symm⟩
    · rw [if_neg hsm] at h
      obtain ⟨r, _, houts⟩ := Option.map_eq_some'.mp h
      right; right
      exact ⟨line, r, rest, rfl, houts.symm, by simpa using hsm⟩

theorem stepLines_single (F : List Char) (h : stepMatch F = false) :
    stepLines false [F] = some [F] := by
  rw [stepLines_false_cons, if_neg (by simp [h])]
  rfl

theorem splitNl_no_nl_all (l : List Char) : ∀ x ∈ splitNl l, ¬ '\n' ∈ x := by
  induction l with
  | nil =>
    intro x hx
    rw [show splitNl [] = [[]] from rfl] at hx
    simp at hx
    simp [hx]
  | cons c cs ih =>
    intro x hx
    rw [splitNl_cons] at hx
    by_cases hc : c = '\n'
    · rw [if_pos hc] at hx
      rcases List.mem_cons.mp hx with he | hm
      · subst he; simp
      · exact ih x hm
    · rw [if_neg hc] at hx
      cases hs : splitNl cs with
      | nil => exact (splitNl_ne_nil cs hs).elim
      | cons y ys =>
        rw [hs] at hx
        rcases List.mem_cons.mp hx with he | hm
        · subst he
          intro hmem
          rcases List.mem_cons.mp hmem with he2 | hm2
          · exact hc he2.symm
          · exact ih y (hs ▸ List.mem_cons_self y ys) hm2
        · exact ih x (hs ▸ List.mem_cons_of_mem y hm)

theorem fo_shape (s O : List Char) (h : format_output s = some O) :
    ¬ '\n' ∈ O ∧ headWs O = false ∧ stepMatch O = false := by
  unfold format_output at h
  obtain ⟨outs, houts, hO⟩ := Option.map_eq_some'.mp h
  subst hO
  have hTws : headWs (faSub (collapseBlank (pyStrip s))) = false := by
    rw [headWs_faSub]
    exact headWs_collapseBlank _ (headWs_pyStrip s)
  have hlines := splitNl_no_nl_all (faSub (collapseBlank (pyStrip s)))
  have houtnl := stepLines_no_nl _ false outs hlines houts
  have hhead := stepLines_false_head _ _ houts
  refine ⟨joinBr_no_nl outs houtnl, ?_, ?_⟩
  · apply headWs_joinBr
    intro x r hxr
    rcases hhead with he | ⟨r2, he⟩ | ⟨l0, r2, rest, hls, he, _⟩
    · rw [he] at hxr; exact List.noConfusion hxr
    · rw [he] at hxr
      injection hxr with h1 _
      subst h1
      decide
    · rw [he] at hxr
      injection hxr with h1 _
      subst h1
      obtain ⟨l0', r', hsp, hws'⟩ := splitNl_head _ hTws
      rw [hls] at hsp
      injection hsp with h2 _
      rw [h2]
      exact hws'
  · apply stepMatch_joinBr
    intro x r hxr
    rcases hhead with he | ⟨r2, he⟩ | ⟨l0, r2, rest, hls, he, hsm⟩
    · rw [he] at hxr; exact List.noConfusion hxr
    · rw [he] at hxr
      injection hxr with h1 _
      subst h1
      decide
    · rw [he] at hxr
      injection hxr with h1 _
      subst h1
      exact hsm

theorem fo_idem (s O : List Char) (h : format_output s = some O) :
    format_output O = some (faSub (pyStrip O)) ∧
    countOcc olOpen (faSub (pyStrip O)) = countOcc olOpen O ∧
    countOcc olClose (faSub (pyStrip O)) = countOcc olClose O := by
  obtain ⟨hnl, hws, hsm⟩ := fo_shape s O h
  have hnlS : ¬ '\n' ∈ pyStrip O := fun hm => hnl (mem_pyStrip hm)
  have hcol : collapseBlank (pyStrip O) = pyStrip O := collapseBlank_no_nl _ hnlS
  have hnlF : ¬ '\n' ∈ faSub (pyStrip O) := faSub_no_nl _ hnlS
  have hsmF : stepMatch (faSub (pyStrip O)) = false :=
    stepMatch_faSub _ (stepMatch_pyStrip O hsm hws)
  refine ⟨?_, ?_, ?_⟩
  · unfold format_output
    rw [hcol, splitNl_single _ hnlF, stepLines_single _ hsmF]
    rfl
  · rw [countOcc_faSub olOpen (Or.inl rfl) _]
    simp only [show olOpen = '<' :: "ol>".toList from rfl]
    exact countOcc_pyStrip _ (by decide) O
  · rw [countOcc_faSub olClose (Or.inr rfl) _]
    simp only [show olClose = '<' :: "/ol>".toList from rfl]
    exact countOcc_pyStrip _ (by decide) O

/- ---------------------------------------------------------------
   Instrumented step listing: correspondence and balance
   --------------------------------------------------------------- -/

theorem stepLinesT_false_cons (line : List Char) (rest : List (List Char)) :
    stepLinesT false (line :: rest) =
      if stepMatch line then
        match pyIndexSpace line with
        | none => none
        | some i =>
          (stepLinesT true rest).map (fun r =>
            Tok.olO :: Tok.item (line.drop (i + 1)) :: r)
      else (stepLinesT false rest).map (fun r => Tok.plain line :: r) := rfl

theorem stepLinesT_true_cons (line : List Char) (rest : List (List Char)) :
    stepLinesT true (line :: rest) =
      if stepMatch line then
        match pyIndexSpace line with
        | none => none
        | some i =>
          (stepLinesT true rest).map (fun r => Tok.item (line.drop (i + 1)) :: r)
      else
        (stepLinesT false rest).map (fun r => Tok.olC :: Tok.plain line :: r) := rfl

theorem stepLines_render (ls : List (List Char)) : ∀ b : Bool,
    stepLines b ls = (stepLinesT b ls).map renderToks := by
  induction ls with
  | nil => intro b; cases b <;> rfl
  | cons line rest ih =>
    intro b
    cases b with
    | false =>
      rw [stepLines_false_cons, stepLinesT_false_cons]
      by_cases hsm : stepMatch line = true
      · rw [if_pos hsm, if_pos hsm]
        cases hidx : pyIndexSpace line with
        | none => rfl
        | some i =>
          rw [ih true]
          cases ht : stepLinesT true rest <;>
            simp [ht, renderToks, renderTok]
      · rw [if_neg hsm, if_neg hsm, ih false]
        cases ht : stepLinesT false rest <;>
          simp [ht, renderToks, renderTok]
    | true =>
      rw [stepLines_true_cons, stepLinesT_true_cons]
      by_cases hsm : stepMatch line = true
      · rw [if_pos hsm, if_pos hsm]
        cases hidx : pyIndexSpace line with
        | none => rfl
        | some i =>
          rw [ih true]
          cases ht : stepLinesT true rest <;>
            simp [ht, renderToks, renderTok]
      · rw [if_neg hsm, if_neg hsm, ih false]
        cases ht : stepLinesT false rest <;>
          simp [ht, renderToks, renderTok]

theorem olMarks_olO (r : List Tok) :
    olMarks (Tok.olO :: r) = true :: olMarks r := rfl

theorem olMarks_olC (r : List Tok) :
    olMarks (Tok.olC :: r) = false :: olMarks r := rfl

theorem olMarks_item (d : List Char) (r : List Tok) :
    olMarks (Tok.item d :: r) = olMarks r := rfl

theorem olMarks_plain (d : List Char) (r : List Tok) :
    olMarks (Tok.plain d :: r) = olMarks r := rfl

theorem stepLinesT_marks (ls : List (List Char)) : ∀ t : List Tok,
    (stepLinesT true ls = some t →
      ∃ m, olMarks t = false :: m ∧ altOC m = true) ∧
    (stepLinesT false ls = some t → altOC (olMarks t) = true) := by
  induction ls with
  | nil =>
    intro t
    constructor
    · intro h
      injection h with h2
      subst h2
      exact ⟨[], rfl, rfl⟩
    · intro h
      injection h with h2
      subst h2
      rfl
  | cons line rest ih =>
    intro t
    constructor
    · intro h
      rw [stepLinesT_true_cons] at h
      by_cases hsm : stepMatch line = true
      · rw [if_pos hsm] at h
        cases hidx : pyIndexSpace line with
        | none => rw [hidx] at h; exact Option.noConfusion h
        | some i =>
          rw [hidx] at h
          obtain ⟨r, hr, ht⟩ := Option.map_eq_some'.mp h
          subst ht
          obtain ⟨m, hm, ha⟩ := (ih r).1 hr
          exact ⟨m, by rw [olMarks_item, hm], ha⟩
      · rw [if_neg hsm] at h
        obtain ⟨r, hr, ht⟩ := Option.map_eq_some'.mp h
        subst ht
        have ha := (ih r).2 hr
        exact ⟨olMarks r, by rw [olMarks_olC, olMarks_plain], ha⟩
    · intro h
      rw [stepLinesT_false_cons] at h
      by_cases hsm : stepMatch line = true
      · rw [if_pos hsm] at h
        cases hidx : pyIndexSpace line with
        | none => rw [hidx] at h; exact Option.noConfusion h
        | some i =>
          rw [hidx] at h
          obtain ⟨r, hr, ht⟩ := Option.map_eq_some'.mp h
          subst ht
          obtain ⟨m, hm, ha⟩ := (ih r).1 hr
          rw [olMarks_olO, olMarks_item, hm]
          show altOC (true :: false :: m) = true
          exact ha
      · rw [if_neg hsm] at h
        obtain ⟨r, hr, ht⟩ := Option.map_eq_some'.mp h
        subst ht
        rw [olMarks_plain]
        exact (ih r).2 hr

/- ---------------------------------------------------------------
   Leftmost behaviour of the final-answer substitution
   --------------------------------------------------------------- -/

theorem faSub_leftmost (post g2 : List Char) (hm : faMatch post = some g2) :
    ∀ pre, (∀ i, i < pre.length → faMatch ((pre ++ post).drop i) = none) →
    faSub (pre ++ post) = pre ++ (bOpen ++ g2 ++ bClose) := by
  intro pre
  induction pre with
  | nil =>
    intro _
    simp only [List.nil_append]
    cases post with
    | nil =>
      rw [show faMatch [] = none from rfl] at hm
      exact Option.noConfusion hm
    | cons c cs =>
      rw [faSub_cons_some hm]
  | cons a pre' ih =>
    intro hp
    have h0 : faMatch ((a :: pre') ++ post) = none := by
      have := hp 0 (by simp)
      simpa using this
    rw [List.cons_append]
    rw [faSub_cons_none (by rw [← List.cons_append]; exact h0)]
    rw [ih (fun i hi => by
      have := hp (i + 1) (by simp; omega)
      rw [List.cons_append, List.drop_succ_cons] at this
      exact this)]
    rfl

theorem ciPre_self_append (p r : List Char) : ciPre p (p ++ r) = true := by
  induction p with
  | nil => rfl
  | cons q qs ih =>
    show (ciEq q q && ciPre qs (qs ++ r)) = true
    rw [ih]
    simp [ciEq]

theorem faTail_colon_space (content : List Char) (hne : ¬ content = [])
    (hws : headWs content = false) :
    faTail (':' :: ' ' :: content) = some content := by
  unfold faTail
  rw [if_neg (by simp)]
  rw [group2_colon, if_neg (by simp)]
  have hdw : (' ' :: content).dropWhile pyWs = content := by
    rw [List.dropWhile_cons_of_pos (by decide), dropWhile_of_headWs content hws]
  rw [hdw, if_neg hne]

theorem faMatch_build1 (content : List Char) (hne : ¬ content = [])
    (hws : headWs content = false) :
    faMatch (faP1 ++ ':' :: ' ' :: content) = some content := by
  unfold faMatch
  rw [if_pos (by rw [ciPre_self_append])]
  have hd : (faP1 ++ ':' :: ' ' :: content).drop 12 = ':' :: ' ' :: content := by
    have h12 : (12 : Nat) = faP1.length := by decide
    rw [h12, List.drop_left]
  rw [hd]
  exact faTail_colon_space content hne hws

theorem faMatch_build2 (content : List Char) (hne : ¬ content = [])
    (hws : headWs content = false) :
    faMatch (faP2 ++ ':' :: ' ' :: content) = some content := by
  unfold faMatch
  have h1 : ciPre faP1 (faP2 ++ ':' :: ' ' :: content) = false := by
    show (ciEq 'F' 'T' &&
      ciPre ("inal answer".toList) ("he answer is".toList ++ ':' :: ' ' :: content)) = false
    rw [show ciEq 'F' 'T' = false from by decide]
    simp
  rw [if_neg (by simp [h1])]
  rw [if_pos (by rw [ciPre_self_append])]
  have hd : (faP2 ++ ':' :: ' ' :: content).drop 13 = ':' :: ' ' :: content := by
    have h13 : (13 : Nat) = faP2.length := by decide
    rw [h13, List.drop_left]
  rw [hd]
  exact faTail_colon_space content hne hws

theorem faMatch_build3 (content : List Char) (hne : ¬ content = [])
    (hws : headWs content = false) :
    faMatch (faP3 ++ ':' :: ' ' :: content) = some content := by
  unfold faMatch
  have h1 : ciPre faP1 (faP3 ++ ':' :: ' ' :: content) = false := by
    show (ciEq 'F' 'R' &&
      ciPre ("inal answer".toList) ("esult".toList ++ ':' :: ' ' :: content)) = false
    rw [show ciEq 'F' 'R' = false from by decide]
    simp
  have h2 : ciPre faP2 (faP3 ++ ':' :: ' ' :: content) = false := by
    show (ciEq 'T' 'R' &&
      ciPre ("he answer is".toList) ("esult".toList ++ ':' :: ' ' :: content)) = false
    rw [show ciEq 'T' 'R' = false from by decide]
    simp
  rw [if_neg (by simp [h1]), if_neg (by simp [h2])]
  rw [if_pos (by rw [ciPre_self_append])]
  have hd : (faP3 ++ ':' :: ' ' :: content).drop 6 = ':' :: ' ' :: content := by
    have h6 : (6 : Nat) = faP3.length := by decide
    rw [h6, List.drop_left]
  rw [hd]
  exact faTail_colon_space content hne hws

/- ---------------------------------------------------------------
   Endpoint helper lemmas
   --------------------------------------------------------------- -/

theorem truthyS_some {s : List Char} (h : ¬ s = []) : truthyS (some s) = true := by
  show (!s.isEmpty) = true
  cases s with
  | nil => exact (h rfl).elim
  | cons a as => rfl

theorem chatEndpoint_some (d : ChatReq)
    (cg gg : Except (List Char) (List Char)) :
    chatEndpoint (some d) cg gg =
      if truthyS d.model ∧ truthyS d.message then
        if d.model = some ("claude".toList) then
          match cg with
          | .error e => ⟨500, .err ("An error occurred: ".toList ++ e), [.claude]⟩
          | .ok comp =>
            match format_output (format_exponents comp) with
            | none =>
              ⟨500, .err ("An error occurred: substring not found".toList), [.claude]⟩
            | some r => ⟨200, .result r, [.claude]⟩
        else if d.model = some ("gpt4".toList) then
          match gg with
          | .error e => ⟨500, .err ("An error occurred: ".toList ++ e), [.gpt4]⟩
          | .ok comp =>
            match format_output (format_exponents comp) with
            | none =>
              ⟨500, .err ("An error occurred: substring not found".toList), [.gpt4]⟩
            | some r => ⟨200, .result r, [.gpt4]⟩
        else ⟨400, .err ("Invalid model specified".toList), []⟩
      else ⟨400, .err ("Invalid input".toList), []⟩ := rfl

theorem solveEndpoint_some (d : SolveReq)
    (cg gg : Except (List Char) (List Char)) :
    solveEndpoint (some d) cg gg =
      if truthyS d.problemType ∧ truthyS d.expression then
        ⟨200,
          .ok (solve_with_claude cg) (solve_with_gpt4 gg)
            (d.problemType.getD []) (d.expression.getD []),
          [.claude, .gpt4]⟩
      else ⟨400, .err ("Invalid input".toList), []⟩ := rfl

/- ---------------------------------------------------------------
   Claims
   --------------------------------------------------------------- -/

/-- Claim C1 (code bug in the source): the spec declares the
normalization pipeline total, but a line that matches the step pattern
with a tab after the delimiter and no literal space anywhere makes
line.index of a space raise ValueError inside format_output; the
embedding returns none exactly on that path.  The first two conjuncts
exhibit the failing path: the line matches the step regex, yet holds no
literal space. -/
theorem claim_C1_failing_eval :
    stepMatch ("1.\tx".toList) = true ∧
    pyIndexSpace ("1.\tx".toList) = none ∧
    format_output ("1.\tx".toList) = none := by
  refine ⟨by decide, by decide, by decide⟩

/-- Claim C2, counterexample: with the claude gateway failing, chat does
not return a successful response carrying the Error text in the result
field; it returns a transport-level 500 whose error field carries the
outer-handler text. -/
theorem claim_C2_counterexample :
    (chatEndpoint (some ⟨some ("claude".toList), some ("hi".toList), []⟩)
        (Except.error ("boom".toList)) (Except.ok ("x".toList))).status = 500 ∧
    (chatEndpoint (some ⟨some ("claude".toList), some ("hi".toList), []⟩)
        (Except.error ("boom".toList)) (Except.ok ("x".toList))).body =
      ChatBody.err ("An error occurred: boom".toList) ∧
    ¬ ((chatEndpoint (some ⟨some ("claude".toList), some ("hi".toList), []⟩)
        (Except.error ("boom".toList)) (Except.ok ("x".toList))).status = 200 ∧
      (chatEndpoint (some ⟨some ("claude".toList), some ("hi".toList), []⟩)
        (Except.error ("boom".toList)) (Except.ok ("x".toList))).body =
        ChatBody.result ("Error: boom".toList)) := by
  refine ⟨by decide, by decide, by decide⟩

/-- Claim C2, amended: for every chat request naming a recognized
provider, a failing completion call propagates to the outer handler and
the chat operation answers with a transport-level error response,
HTTP 500 with the outer-handler error text, after invoking exactly the
chosen gateway; it does not answer 200 with an Error result string. -/
theorem claim_C2_amended : ∀ (msg ctx e : List Char)
    (g : Except (List Char) (List Char)), ¬ msg = [] →
    chatEndpoint (some ⟨some ("claude".toList), some msg, ctx⟩)
        (Except.error e) g =
      ⟨500, ChatBody.err ("An error occurred: ".toList ++ e), [Provider.claude]⟩ ∧
    chatEndpoint (some ⟨some ("gpt4".toList), some msg, ctx⟩)
        g (Except.error e) =
      ⟨500, ChatBody.err ("An error occurred: ".toList ++ e), [Provider.gpt4]⟩ := by
  intro msg ctx e g hmsg
  constructor
  · rw [chatEndpoint_some,
      if_pos ⟨show truthyS (some ("claude".toList)) = true by decide,
        truthyS_some hmsg⟩,
      if_pos rfl]
  · rw [chatEndpoint_some,
      if_pos ⟨show truthyS (some ("gpt4".toList)) = true by decide,
        truthyS_some hmsg⟩,
      if_neg (show ¬ some ("gpt4".toList) = some ("claude".toList) by decide),
      if_pos rfl]

/-- Claim C2, witness instance of the amended claim. -/
theorem claim_C2_witness :
    chatEndpoint (some ⟨some ("claude".toList), some ("hi".toList), []⟩)
        (Except.error ("boom".toList)) (Except.ok ("x".toList)) =
      ⟨500, ChatBody.err ("An error occurred: boom".toList), [Provider.claude]⟩ ∧
    chatEndpoint (some ⟨some ("gpt4".toList), some ("hi".toList), []⟩)
        (Except.ok ("x".toList)) (Except.error ("boom".toList)) =
      ⟨500, ChatBody.err ("An error occurred: boom".toList), [Provider.gpt4]⟩ :=
  claim_C2_amended ("hi".toList) [] ("boom".toList) (Except.ok ("x".toList))
    (by decide)

/-- Claim C3, counterexample: a marker occurrence that does not begin a
line is rewritten by the final-answer rule, so the output is not the
unchanged input that the claim requires for such occurrences. -/
theorem claim_C3_counterexample :
    format_output ("see Result: 42".toList) =
      some ("see <strong>Final Answer: 42</strong>".toList) ∧
    ¬ ("see <strong>Final Answer: 42</strong>".toList =
        "see Result: 42".toList) := by
  refine ⟨by decide, by decide⟩

/-- Claim C3, amended: the final-answer rule rewrites the first marker
occurrence anywhere in the string, not only at line beginnings.  If no
earlier position matches the pattern, the text from the marker through
the end of the whole string is replaced by a single bold span relabeled
Final Answer followed by the captured content. -/
theorem claim_C3_amended : ∀ (pre phrase content : List Char),
    (phrase = faP1 ∨ phrase = faP2 ∨ phrase = faP3) →
    ¬ content = [] → headWs content = false →
    (∀ i, i < pre.length →
      faMatch ((pre ++ (phrase ++ ':' :: ' ' :: content)).drop i) = none) →
    faSub (pre ++ (phrase ++ ':' :: ' ' :: content)) =
      pre ++ (bOpen ++ content ++ bClose) := by
  intro pre phrase content hph hne hws hpre
  have hm : faMatch (phrase ++ ':' :: ' ' :: content) = some content := by
    rcases hph with he | he | he <;> subst he
    · exact faMatch_build1 content hne hws
    · exact faMatch_build2 content hne hws
    · exact faMatch_build3 content hne hws
  exact faSub_leftmost _ _ hm pre hpre

/-- Claim C3, witness instance of the amended claim, also covering the
spec example with the marker Final answer and content 42. -/
theorem claim_C3_witness :
    faSub ("ab ".toList ++ (faP1 ++ ':' :: ' ' :: "42".toList)) =
      "ab ".toList ++ (bOpen ++ "42".toList ++ bClose) :=
  claim_C3_amended ("ab ".toList) faP1 ("42".toList) (Or.inl rfl)
    (by decide) (by decide) (by decide)

/-- Claim C4: format_exponents is extensionally the single generic caret
substitution; the eight legacy literal rules never change the string
once the generic rule has run.  In particular the spec example yields
the sup-tag rendering and holds no Unicode superscript glyph. -/
theorem claim_C4 :
    (∀ l, format_exponents l = subCaret l) ∧
    format_exponents ("x^2 + 3".toList) = "x<sup>2</sup> + 3".toList ∧
    ¬ '²' ∈ format_exponents ("x^2 + 3".toList) :=
  ⟨format_exponents_eq_subCaret, by decide, by decide⟩

/-- Claim C5: in solve, each failing gateway is rendered as the Error
string in its own result field, the sibling attempt is not aborted, and
with both gateways failing the response is still a 200 with both Error
strings; the second conjunct shows a failing claude gateway combined
with an arbitrary gpt4 gateway outcome. -/
theorem claim_C5 : ∀ (pt expr e1 e2 : List Char)
    (g : Except (List Char) (List Char)), ¬ pt = [] → ¬ expr = [] →
    solveEndpoint (some ⟨some pt, some expr⟩)
        (Except.error e1) (Except.error e2) =
      ⟨200, SolveBody.ok ("Error: ".toList ++ e1) ("Error: ".toList ++ e2)
        pt expr, [Provider.claude, Provider.gpt4]⟩ ∧
    solveEndpoint (some ⟨some pt, some expr⟩) (Except.error e1) g =
      ⟨200, SolveBody.ok ("Error: ".toList ++ e1) (solve_with_gpt4 g)
        pt expr, [Provider.claude, Provider.gpt4]⟩ := by
  intro pt expr e1 e2 g hpt hexpr
  constructor
  · rw [solveEndpoint_some, if_pos ⟨truthyS_some hpt, truthyS_some hexpr⟩]
    rfl
  · rw [solveEndpoint_some, if_pos ⟨truthyS_some hpt, truthyS_some hexpr⟩]
    rfl

/-- Claim C5, witness instance. -/
theorem claim_C5_witness :
    solveEndpoint (some ⟨some ("math".toList), some ("2+2".toList)⟩)
        (Except.error ("boom".toList)) (Except.error ("kaput".toList)) =
      ⟨200, SolveBody.ok ("Error: boom".toList) ("Error: kaput".toList)
        ("math".toList) ("2+2".toList), [Provider.claude, Provider.gpt4]⟩ ∧
    solveEndpoint (some ⟨some ("math".toList), some ("2+2".toList)⟩)
        (Except.error ("boom".toList)) (Except.ok ("ok".toList)) =
      ⟨200, SolveBody.ok ("Error: boom".toList) ("ok".toList)
        ("math".toList) ("2+2".toList), [Provider.claude, Provider.gpt4]⟩ :=
  claim_C5 ("math".toList) ("2+2".toList) ("boom".toList) ("kaput".toList)
    (Except.ok ("ok".toList)) (by decide) (by decide)

/-- Claim C6: a solve request with a missing or empty domain or question
is answered 400 with an error body and no provider gateway is
invoked. -/
theorem claim_C6 : ∀ (d : SolveReq) (cg gg : Except (List Char) (List Char)),
    truthyS d.problemType = false ∨ truthyS d.expression = false →
    (solveEndpoint (some d) cg gg).status = 400 ∧
    (∃ m, (solveEndpoint (some d) cg gg).body = SolveBody.err m) ∧
    (solveEndpoint (some d) cg gg).calls = [] := by
  intro d cg gg h
  have hneg : ¬ (truthyS d.problemType = true ∧ truthyS d.expression = true) := by
    intro hc
    rcases h with h | h
    · rw [h] at hc
      exact Bool.noConfusion hc.1
    · rw [h] at hc
      exact Bool.noConfusion hc.2
  rw [solveEndpoint_some, if_neg hneg]
  exact ⟨rfl, ⟨_, rfl⟩, rfl⟩

/-- Claim C6, witness instance with an empty domain. -/
theorem claim_C6_witness :
    (solveEndpoint (some ⟨some [], some ("2+2".toList)⟩)
        (Except.ok ("x".toList)) (Except.ok ("y".toList))).status = 400 ∧
    (∃ m, (solveEndpoint (some ⟨some [], some ("2+2".toList)⟩)
        (Except.ok ("x".toList)) (Except.ok ("y".toList))).body =
      SolveBody.err m) ∧
    (solveEndpoint (some ⟨some [], some ("2+2".toList)⟩)
        (Except.ok ("x".toList)) (Except.ok ("y".toList))).calls = [] :=
  claim_C6 ⟨some [], some ("2+2".toList)⟩ (Except.ok ("x".toList))
    (Except.ok ("y".toList)) (Or.inl (by decide))

set_option maxHeartbeats 1000000 in
/-- Claim C7: a chat request with a missing selector or message, or an
unrecognized selector, is answered 400 with no gateway call; a
recognized selector dispatches to exactly the chosen gateway and never
to the other. -/
theorem claim_C7 : ∀ (d : ChatReq) (cg gg : Except (List Char) (List Char)),
    ((truthyS d.model = false ∨ truthyS d.message = false ∨
        (¬ d.model = some ("claude".toList) ∧
          ¬ d.model = some ("gpt4".toList))) →
      (chatEndpoint (some d) cg gg).status = 400 ∧
      (chatEndpoint (some d) cg gg).calls = []) ∧
    (truthyS d.message = true →
      (d.model = some ("claude".toList) →
        (chatEndpoint (some d) cg gg).calls = [Provider.claude]) ∧
      (d.model = some ("gpt4".toList) →
        (chatEndpoint (some d) cg gg).calls = [Provider.gpt4])) := by
  intro d cg gg
  constructor
  · intro h
    rcases h with h | h | ⟨h1, h2⟩
    · have hneg : ¬ (truthyS d.model = true ∧ truthyS d.message = true) := by
        intro hc
        rw [h] at hc
        exact Bool.noConfusion hc.1
      rw [chatEndpoint_some, if_neg hneg]
      exact ⟨rfl, rfl⟩
    · have hneg : ¬ (truthyS d.model = true ∧ truthyS d.message = true) := by
        intro hc
        rw [h] at hc
        exact Bool.noConfusion hc.2
      rw [chatEndpoint_some, if_neg hneg]
      exact ⟨rfl, rfl⟩
    · rw [chatEndpoint_some]
      by_cases hv : truthyS d.model = true ∧ truthyS d.message = true
      · rw [if_pos hv, if_neg h1, if_neg h2]
        exact ⟨rfl, rfl⟩
      · rw [if_neg hv]
        exact ⟨rfl, rfl⟩
  · intro hmsg
    constructor
    · intro hmod
      rw [chatEndpoint_some,
        if_pos ⟨by rw [hmod]; decide, hmsg⟩, if_pos hmod]
      cases cg with
      | error e => rfl
      | ok comp =>
        show (match format_output (format_exponents comp) with
          | none =>
            ({ status := 500,
               body := ChatBody.err ("An error occurred: substring not found".toList),
               calls := [Provider.claude] } : ChatOut)
          | some r =>
            { status := 200, body := ChatBody.result r,
              calls := [Provider.claude] }).calls = [Provider.claude]
        cases format_output (format_exponents comp) with
        | none => rfl
        | some r => rfl
    · intro hmod
      rw [chatEndpoint_some,
        if_pos ⟨by rw [hmod]; decide, hmsg⟩,
        if_neg (by rw [hmod]; decide), if_pos hmod]
      cases gg with
      | error e => rfl
      | ok comp =>
        show (match format_output (format_exponents comp) with
          | none =>
            ({ status := 500,
               body := ChatBody.err ("An error occurred: substring not found".toList),
               calls := [Provider.gpt4] } : ChatOut)
          | some r =>
            { status := 200, body := ChatBody.result r,
              calls := [Provider.gpt4] }).calls = [Provider.gpt4]
        cases format_output (format_exponents comp) with
        | none => rfl
        | some r => rfl

/-- Claim C7, witness instances: an unrecognized selector is answered
400 with no gateway call, and the claude selector dispatches to the
claude gateway only. -/
theorem claim_C7_witness :
    ((chatEndpoint (some ⟨some ("zzz".toList), some ("hi".toList), []⟩)
        (Except.ok ("x".toList)) (Except.ok ("y".toList))).status = 400 ∧
      (chatEndpoint (some ⟨some ("zzz".toList), some ("hi".toList), []⟩)
        (Except.ok ("x".toList)) (Except.ok ("y".toList))).calls = []) ∧
    (chatEndpoint (some ⟨some ("claude".toList), some ("hi".toList), []⟩)
        (Except.ok ("x".toList)) (Except.ok ("y".toList))).calls =
      [Provider.claude] :=
  ⟨(claim_C7 ⟨some ("zzz".toList), some ("hi".toList), []⟩
      (Except.ok ("x".toList)) (Except.ok ("y".toList))).1
        (Or.inr (Or.inr ⟨by decide, by decide⟩)),
    ((claim_C7 ⟨some ("claude".toList), some ("hi".toList), []⟩
      (Except.ok ("x".toList)) (Except.ok ("y".toList))).2 (by decide)).1 rfl⟩

/-- Claim C8: the three-line spec example produces an ordered-list
container with exactly the two items, the third line outside the list,
and every element joined by the line-break marker. -/
theorem claim_C8 :
    format_output ("1. Do this\n2. Do that\nDone.".toList) =
      some ("<ol><br><li>Do this</li><br><li>Do that</li><br></ol><br>Done.".toList) := by
  decide

/-- Claim C9: applying format_output to output it already produced
succeeds and leaves the number of ordered-list container tokens
unchanged, for every already-formatted input. -/
theorem claim_C9 : ∀ s t : List Char, format_output s = some t →
    ∃ u, format_output t = some u ∧
      countOcc olOpen u = countOcc olOpen t ∧
      countOcc olClose u = countOcc olClose t := by
  intro s t h
  obtain ⟨h1, h2, h3⟩ := fo_idem s t h
  exact ⟨faSub (pyStrip t), h1, h2, h3⟩

/-- Claim C9, witness instance on an already-bulleted output. -/
theorem claim_C9_witness :
    ∃ u, format_output ("<ol><br><li>a</li><br></ol><br>b".toList) = some u ∧
      countOcc olOpen u =
        countOcc olOpen ("<ol><br><li>a</li><br></ol><br>b".toList) ∧
      countOcc olClose u =
        countOcc olClose ("<ol><br><li>a</li><br></ol><br>b".toList) :=
  claim_C9 ("1. a\nb".toList) ("<ol><br><li>a</li><br></ol><br>b".toList)
    (by decide)

/-- Claim C10: the step-listing loop always emits balanced ordered-list
container tokens.  The first conjunct ties the loop to an instrumented
twin that tags each emitted piece, and the second states that the
emitted open and close container tokens of the instrumented run
alternate and end closed, so no emitted container stays unterminated,
including when the final line was still inside an open list. -/
theorem claim_C10 :
    (∀ (ls : List (List Char)) (b : Bool),
      stepLines b ls = (stepLinesT b ls).map renderToks) ∧
    (∀ (ls : List (List Char)) (t : List Tok),
      stepLinesT false ls = some t → altOC (olMarks t) = true) :=
  ⟨fun ls b => stepLines_render ls b,
   fun ls t h => (stepLinesT_marks ls t).2 h⟩

/-- Claim C10, witness instance: a single step line inside an input
leaves the list closed at the end. -/
theorem claim_C10_witness :
    altOC (olMarks [Tok.olO, Tok.item ("a".toList), Tok.olC]) = true :=
  claim_C10.2 [("1. a".toList)] [Tok.olO, Tok.item ("a".toList), Tok.olC]
    (by decide)
